import Mathlib

/-!
Shallow embedding of `src/ec/suite_b/ops/vartime.rs`: the variable-time
scalar multiplication `point_mul_vartime` and the two-term combination
`points_mul_vartime`.

Field elements are opaque (a type parameter `E`).  The external
collaborators of this core are not under `src/` — the field primitives
(`elem_mul`, `elem_negate_vartime`), the projective group-law primitives
(`fallback::point_double`, `fallback::points_add_vartime`), `new_point`,
and the C recoder `ec_compute_wNAF`.  They are modelled from the spec:
the primitives are fields of the `CommonOps` record (their semantics are
stated as the spec's contracts in `SpecModel` below), and the recoder's
output digit sequence is an input of the embedded functions, constrained
in theorems by the recoder's contract from the spec (every nonzero digit
odd, magnitude in `[1, 15]`, digit sequence re-deriving the scalar).

Every call this core makes to a group-law primitive is recorded in a
`PrimCall` log so that theorems can speak about the operands handed to
the external primitives.
-/

/-- A projective triple `[Elem<R>; 3]`: the coordinates (X, Y, Z). -/
abbrev Pt (E : Type) := E × E × E

/-- One call to an external group-law primitive, with its point operands:
`dbl p` records `point_double` applied to `p`; `add a b` records
`points_add_vartime` combining `a` with the triple `b`. -/
inductive PrimCall (E : Type) where
  | dbl (p : Pt E)
  | add (a : Pt E) (b : Pt E)
  deriving DecidableEq

/-- The curve-operation context.  `zero` is `Elem::zero()`; `raw_one` is
`Elem::zero()` with `limbs[0] = 1` (the plain integer 1); `rr` is the
context's squared-radix constant `ops.q.rr` copied into a zeroed element.
`elem_mul`, `elem_negate_vartime` and `new_point` are the context's
methods; `point_double` and `points_add_vartime` are the `fallback`
primitives.  Modelled from the spec: the bodies of all of these live
outside `src/`, so they are opaque fields here. -/
structure CommonOps (E : Type) (Pub : Type) where
  zero : E
  raw_one : E
  rr : E
  elem_mul : E → E → E
  elem_negate_vartime : E → E
  point_double : Pt E → Pt E
  points_add_vartime : Pt E → E → E → E → Pt E
  new_point : E → E → E → Pub

/-- `const WINDOW_BITS: u32 = 4`. -/
def WINDOW_BITS : ℕ := 4

/-- `const PRECOMP_SIZE: usize = 1 << (WINDOW_BITS - 1)`. -/
def PRECOMP_SIZE : ℕ := 1 <<< (WINDOW_BITS - 1)

/-- The Z coordinate given to table entry 0: 1 in the Montgomery domain,
computed by `ops.elem_mul(&mut acc, &rr)` with `acc` the plain integer 1
(`vartime.rs` lines 46-55). -/
def one_mont {E Pub : Type} (ops : CommonOps E Pub) : E :=
  ops.elem_mul ops.raw_one ops.rr

/-- Table entry 0: the base point `(x, y)` with projective Z set to
`one_mont` (`precomp[0]`, `vartime.rs` lines 44-55). -/
def entry0 {E Pub : Type} (ops : CommonOps E Pub) (x y : E) : Pt E :=
  (x, y, one_mont ops)

/-- The loop `for i in 1..precomp.len()` (`vartime.rs` lines 66-79):
starting from entry `e`, each next entry is produced out of place by
`points_add_vartime` with input `p2` and operands the previous entry.
Returns the built entries (`k + 1` of them) together with the log of the
addition calls made. -/
def buildPrecomp {E Pub : Type} (ops : CommonOps E Pub) (p2 : Pt E) (e : Pt E) :
    ℕ → List (Pt E) × List (PrimCall E)
  | 0 => ([e], [])
  | k + 1 =>
    let nxt := ops.points_add_vartime p2 e.1 e.2.1 e.2.2
    let rest := buildPrecomp ops p2 nxt k
    (e :: rest.1, PrimCall.add p2 e :: rest.2)

/-- The whole precomputation (`vartime.rs` lines 42-79): entry 0 is the
base point with Z = `one_mont`; `p2` is `point_double` of entry 0; the
remaining `PRECOMP_SIZE - 1` entries are built by `buildPrecomp`.
Returns the table and the log of primitive calls made. -/
def precompAll {E Pub : Type} (ops : CommonOps E Pub) (x y : E) :
    List (Pt E) × List (PrimCall E) :=
  let e0 := entry0 ops x y
  let p2 := ops.point_double e0
  let b := buildPrecomp ops p2 e0 (PRECOMP_SIZE - 1)
  (b.1, PrimCall.dbl e0 :: b.2)

/-- `struct PointVartime` (`vartime.rs` lines 123-126): the accumulator,
holding the context and `value: Option<[Elem<R>; 3]>` where `none` is
the point at infinity. -/
structure PointVartime (E Pub : Type) where
  ops : CommonOps E Pub
  value : Option (Pt E)

/-- `PointVartime::new_at_infinity` (`vartime.rs` lines 129-131). -/
def PointVartime.new_at_infinity {E Pub : Type} (ops : CommonOps E Pub) :
    PointVartime E Pub :=
  ⟨ops, none⟩

/-- `PointVartime::double_assign` (`vartime.rs` lines 132-136): doubles
in place when a concrete value is held, does nothing on infinity.  Also
returns the log of primitive calls made. -/
def PointVartime.double_assign {E Pub : Type} (a : PointVartime E Pub) :
    PointVartime E Pub × List (PrimCall E) :=
  match a.value with
  | some p => (⟨a.ops, some (a.ops.point_double p)⟩, [PrimCall.dbl p])
  | none => (a, [])

/-- `PointVartime::add_assign` (`vartime.rs` lines 138-144): adds the
triple `(x, y, z)` in place when a concrete value is held; on infinity the
value becomes exactly `(x, y, z)` and no primitive is invoked. -/
def PointVartime.add_assign {E Pub : Type} (a : PointVartime E Pub) (x y z : E) :
    PointVartime E Pub × List (PrimCall E) :=
  match a.value with
  | some v =>
    (⟨a.ops, some (a.ops.points_add_vartime v x y z)⟩, [PrimCall.add v (x, y, z)])
  | none => (⟨a.ops, some (x, y, z)⟩, [])

/-- The table index of a digit:
`usize::try_from(if neg { -digit } else { digit }).unwrap() >> 1`
(`vartime.rs` line 104). -/
def digitIdx (digit : ℤ) : ℕ :=
  (if digit < 0 then -digit else digit).toNat >>> 1

/-- The state threaded through the digit fold: the (in Rust, mutably
borrowable) precomputation table, the accumulator, and the log of
primitive calls made so far. -/
structure FoldState (E Pub : Type) where
  precomp : List (Pt E)
  acc : PointVartime E Pub
  calls : List (PrimCall E)

/-- The `if digit != 0` branch of the fold body (`vartime.rs` lines
101-115): look up `precomp[idx]`, negate a local copy of the entry's Y
when the digit is negative, and `add_assign` into the accumulator. -/
def digitOnly {E Pub : Type} (ops : CommonOps E Pub) (st : FoldState E Pub)
    (digit : ℤ) : FoldState E Pub :=
  if digit ≠ 0 then
    let entry := st.precomp.getD (digitIdx digit) (ops.zero, ops.zero, ops.zero)
    let yv := if digit < 0 then ops.elem_negate_vartime entry.2.1 else entry.2.1
    let r := st.acc.add_assign entry.1 yv entry.2.2
    ⟨st.precomp, r.1, st.calls ++ r.2⟩
  else st

/-- The `if i != 0 { acc.double_assign() }` part of the fold body
(`vartime.rs` lines 116-118). -/
def doubleOnly {E Pub : Type} (ops : CommonOps E Pub) (st : FoldState E Pub) :
    FoldState E Pub :=
  let r := st.acc.double_assign
  ⟨st.precomp, r.1, st.calls ++ r.2⟩

/-- One iteration of `wnaf.iter().enumerate().rev().for_each` applied to
`(i, digit)` (`vartime.rs` lines 100-119). -/
def digitStep {E Pub : Type} (ops : CommonOps E Pub) (st : FoldState E Pub)
    (id : ℕ × ℤ) : FoldState E Pub :=
  let st1 := digitOnly ops st id.2
  if id.1 ≠ 0 then doubleOnly ops st1 else st1

/-- The digit fold of `point_mul_vartime` (`vartime.rs` lines 98-119):
fold `digitStep` over the enumerated digit sequence in reverse (most
significant first), starting from the freshly built table and an
accumulator at infinity. -/
def mulFold {E Pub : Type} (ops : CommonOps E Pub) (wnaf : List ℤ) (x y : E) :
    FoldState E Pub :=
  (wnaf.enum.reverse).foldl (digitStep ops)
    ⟨(precompAll ops x y).1, PointVartime.new_at_infinity ops, []⟩

/-- `point_mul_vartime` (`vartime.rs` lines 34-121).  The wNAF digit
sequence is an input (it is produced by the external C recoder
`ec_compute_wNAF`, modelled from the spec by the contract hypotheses in
the theorems below).  Returns the projective triple — the accumulator's
value, or the all-zero triple if the accumulator ended at infinity — and
the log of every group-law primitive call made. -/
def point_mul_vartime {E Pub : Type} (ops : CommonOps E Pub) (wnaf : List ℤ)
    (p : E × E) : Pt E × List (PrimCall E) :=
  let fin := mulFold ops wnaf p.1 p.2
  (fin.acc.value.getD (ops.zero, ops.zero, ops.zero),
   (precompAll ops p.1 p.2).2 ++ fin.calls)

/-- `points_mul_vartime` (`vartime.rs` lines 21-32): two independent
`point_mul_vartime` calls, one in-place `points_add_vartime` merging the
second triple into the first, then `ops.new_point`. -/
def points_mul_vartime {E Pub : Type} (ops : CommonOps E Pub)
    (g_wnaf : List ℤ) (g : E × E) (p_wnaf : List ℤ) (p : E × E) :
    Pub × List (PrimCall E) :=
  let r1 := point_mul_vartime ops g_wnaf g
  let r2 := point_mul_vartime ops p_wnaf p
  let acc := ops.points_add_vartime r1.1 r2.1.1 r2.1.2.1 r2.1.2.2
  (ops.new_point acc.1 acc.2.1 acc.2.2, r1.2 ++ r2.2 ++ [PrimCall.add r1.1 r2.1])

/-- The wNAF digit buffer `[0; MAX_BITS.as_usize_bits() + 1]`
(`vartime.rs` line 81). -/
def wnafBuffer (max_bits : ℕ) : List ℤ :=
  List.replicate (max_bits + 1) 0

/-- The slicing `&mut wnaf[..(order_bits + 1)]` (`vartime.rs` line 83):
Rust panics when the requested length exceeds the buffer's length, which
is modelled by `none`. -/
def sliceWnaf (max_bits order_bits : ℕ) : Option (List ℤ) :=
  if order_bits + 1 ≤ (wnafBuffer max_bits).length then
    some ((wnafBuffer max_bits).take (order_bits + 1))
  else none

/-- The recoder's per-digit contract, from the spec: every nonzero digit
is odd (this is also the code's `debug_assert_eq!(digit & 1, 1)`) with
magnitude in `[1, 2^(WINDOW_BITS-1) * 2 - 1] = [1, 15]`. -/
def wnafDigitOk (d : ℤ) : Prop :=
  d ≠ 0 → (d % 2 = 1 ∧ d.natAbs ≤ 15)

instance (d : ℤ) : Decidable (wnafDigitOk d) := by
  unfold wnafDigitOk; infer_instance

/-- The integer a digit sequence denotes: `sum of digit_i * 2^i`
(least-significant digit first), from the spec's digit-table-correctness
contract for the recoder. -/
def wnafVal : List ℤ → ℤ
  | [] => 0
  | d :: rest => d + 2 * wnafVal rest

/-- A primitive call is admissible for `points_add_vartime` if it is a
doubling, or an addition in which neither operand represents the point at
infinity (`toGrp` sending a triple to the group element it represents,
with 0 for infinity). -/
def addCallOk {E G : Type} [AddCommGroup G] (toGrp : Pt E → G) :
    PrimCall E → Prop
  | PrimCall.dbl _ => True
  | PrimCall.add a b => toGrp a ≠ 0 ∧ toGrp b ≠ 0

/-- Modelled from the spec: the semantics of the external collaborators.
`toGrp` is the abstraction sending a projective triple to the element of
the curve group `G` it represents, the point at infinity mapping to `0`.
`n` is the group order.  `double_spec`/`add_spec`/`neg_spec` are the
spec's contracts for `fallback::point_double`,
`fallback::points_add_vartime` (whose behavior is only specified when
neither operand is infinity) and `elem_negate_vartime` (negating Y
negates the point); `zero_spec` is the spec's convention that the
all-zero triple represents infinity. -/
structure SpecModel (E Pub G : Type) [AddCommGroup G] where
  ops : CommonOps E Pub
  toGrp : Pt E → G
  n : ℕ
  n_odd : ¬ (2 ∣ n)
  n_big : 15 < n
  double_spec : ∀ p : Pt E, toGrp (ops.point_double p) = (2 : ℤ) • toGrp p
  add_spec : ∀ (a : Pt E) (x y z : E), toGrp a ≠ 0 → toGrp (x, y, z) ≠ 0 →
    toGrp (ops.points_add_vartime a x y z) = toGrp a + toGrp (x, y, z)
  neg_spec : ∀ x y z : E,
    toGrp (x, ops.elem_negate_vartime y, z) = - toGrp (x, y, z)
  zero_spec : toGrp (ops.zero, ops.zero, ops.zero) = 0

/-- The `i`-th odd multiple as the out-of-place construction computes it:
entry 0 is `e`, entry `i+1` is `points_add_vartime` of `p2` with the
coordinates of entry `i`. -/
def iterEntry {E Pub : Type} (ops : CommonOps E Pub) (p2 : Pt E) (e : Pt E) :
    ℕ → Pt E
  | 0 => e
  | i + 1 =>
    let prev := iterEntry ops p2 e i
    ops.points_add_vartime p2 prev.1 prev.2.1 prev.2.2

/-- The initial fold state of `point_mul_vartime`: the built table, an
accumulator at infinity, an empty call log. -/
def initState {E Pub : Type} (ops : CommonOps E Pub) (x y : E) :
    FoldState E Pub :=
  ⟨(precompAll ops x y).1, PointVartime.new_at_infinity ops, []⟩

/-- The digit fold restricted to the digits at positions `≥ 1`: each of
those digits is followed by a doubling (their enumeration index is
nonzero), most significant processed first. -/
def runHi {E Pub : Type} (ops : CommonOps E Pub) (st : FoldState E Pub) :
    List ℤ → FoldState E Pub
  | [] => st
  | d :: rest => doubleOnly ops (digitOnly ops (runHi ops st rest) d)

/-- The whole digit fold: the digits at positions `≥ 1` with their
doublings, then the digit at position 0 with no doubling after it. -/
def runAll {E Pub : Type} (ops : CommonOps E Pub) (st : FoldState E Pub) :
    List ℤ → FoldState E Pub
  | [] => st
  | d :: rest => digitOnly ops (runHi ops st rest) d

/-- A concrete instantiation used to exhibit counterexamples and to
witness the hypotheses of the theorems below: the "curve group" is the
additive group `ZMod 31`, a triple `(x, y, z)` representing `y` when
`z ≠ 0` and the point at infinity when `z = 0`. -/
def toyAbs (p : Pt (ZMod 31)) : ZMod 31 :=
  if p.2.2 = 0 then 0 else p.2.1

/-- The concrete curve-operation context over `ZMod 31` matching
`toyAbs`: doubling and addition write a fresh representative of the
doubled or summed element. -/
def toyOps : CommonOps (ZMod 31) (Pt (ZMod 31)) where
  zero := 0
  raw_one := 1
  rr := 1
  elem_mul := fun a b => a * b
  elem_negate_vartime := fun a => -a
  point_double := fun p => (0, toyAbs p + toyAbs p, 1)
  points_add_vartime := fun a x y z => (0, toyAbs a + toyAbs (x, y, z), 1)
  new_point := fun x y z => (x, y, z)

/-- The spec-modelled semantics hold for the concrete context. -/
def toySpec : SpecModel (ZMod 31) (Pt (ZMod 31)) (ZMod 31) where
  ops := toyOps
  toGrp := toyAbs
  n := 31
  n_odd := by decide
  n_big := by decide
  double_spec := by
    intro p
    show toyAbs (0, toyAbs p + toyAbs p, 1) = (2 : ℤ) • toyAbs p
    rw [two_zsmul, toyAbs, if_neg (by decide : ¬ (1 : ZMod 31) = 0)]
  add_spec := by
    intro a x y z _ _
    show toyAbs (0, toyAbs a + toyAbs (x, y, z), 1) = _
    rw [toyAbs, if_neg (by decide : ¬ (1 : ZMod 31) = 0)]
  neg_spec := by
    intro x y z
    show toyAbs (x, -y, z) = - toyAbs (x, y, z)
    by_cases h : z = 0
    · simp [toyAbs, h]
    · simp [toyAbs, h]
  zero_spec := by decide

/-- The base point `(1, 1)` of the concrete context generates `ZMod 31`:
an integer multiple of it vanishes exactly when `31` divides the
integer. -/
theorem toyOrd : ∀ m : ℤ,
    m • toySpec.toGrp (entry0 toySpec.ops 1 1) = 0 ↔ ((31 : ℕ) : ℤ) ∣ m := by
  intro m
  have h1 : toySpec.toGrp (entry0 toySpec.ops 1 1) = 1 := by decide
  rw [h1, zsmul_eq_mul, mul_one]
  exact ZMod.intCast_zmod_eq_zero_iff_dvd m 31

example : (point_mul_vartime toyOps [5] (1, 1)).1 = (0, 5, 1) := by decide
example : (point_mul_vartime toyOps [0] (1, 1)).1 = (0, 0, 0) := by decide
example : (point_mul_vartime toyOps [1] (1, 1)).1 = (1, 1, 1) := by decide
example : (point_mul_vartime toyOps [1, 0, 1] (1, 1)).1 = (0, 5, 1) := by decide
example : (point_mul_vartime toyOps [-1, 0, 1] (1, 1)).1 = (0, 3, 1) := by decide
example : (precompAll toyOps 1 1).1.getD 1 (0, 0, 0) = (0, 3, 1) := by decide
example : (precompAll toyOps 1 1).1.getD 7 (0, 0, 0) = (0, 15, 1) := by decide
example :
    PrimCall.add ((0, 0, 0) : Pt (ZMod 31)) ((1, 1, 1) : Pt (ZMod 31)) ∈
      (points_mul_vartime toyOps [0] (1, 1) [1] (1, 1)).2 := by decide

/-! ## Structural lemmas about the accumulator and the fold -/

theorem add_assign_mk_none {E Pub : Type} (o : CommonOps E Pub) (x y z : E) :
    (PointVartime.mk o none).add_assign x y z = (⟨o, some (x, y, z)⟩, []) := rfl

theorem add_assign_mk_some {E Pub : Type} (o : CommonOps E Pub) (v : Pt E)
    (x y z : E) :
    (PointVartime.mk o (some v)).add_assign x y z =
      (⟨o, some (o.points_add_vartime v x y z)⟩, [PrimCall.add v (x, y, z)]) := rfl

theorem double_assign_mk_none {E Pub : Type} (o : CommonOps E Pub) :
    (PointVartime.mk o none).double_assign = (⟨o, none⟩, []) := rfl

theorem double_assign_mk_some {E Pub : Type} (o : CommonOps E Pub) (v : Pt E) :
    (PointVartime.mk o (some v)).double_assign =
      (⟨o, some (o.point_double v)⟩, [PrimCall.dbl v]) := rfl

theorem digitOnly_zero_digit {E Pub : Type} (ops : CommonOps E Pub)
    (st : FoldState E Pub) : digitOnly ops st 0 = st := by
  simp [digitOnly]

theorem digitOnly_precomp {E Pub : Type} (ops : CommonOps E Pub)
    (st : FoldState E Pub) (d : ℤ) : (digitOnly ops st d).precomp = st.precomp := by
  unfold digitOnly
  split <;> rfl

theorem doubleOnly_precomp {E Pub : Type} (ops : CommonOps E Pub)
    (st : FoldState E Pub) : (doubleOnly ops st).precomp = st.precomp := rfl

theorem digitStep_precomp {E Pub : Type} (ops : CommonOps E Pub)
    (st : FoldState E Pub) (id : ℕ × ℤ) :
    (digitStep ops st id).precomp = st.precomp := by
  unfold digitStep
  split
  · rw [doubleOnly_precomp, digitOnly_precomp]
  · rw [digitOnly_precomp]

theorem foldl_digitStep_precomp {E Pub : Type} (ops : CommonOps E Pub)
    (st : FoldState E Pub) (l : List (ℕ × ℤ)) :
    (List.foldl (digitStep ops) st l).precomp = st.precomp := by
  induction l generalizing st with
  | nil => rfl
  | cons a l ih => rw [List.foldl_cons, ih, digitStep_precomp]

theorem runHi_precomp {E Pub : Type} (ops : CommonOps E Pub)
    (st : FoldState E Pub) (w : List ℤ) :
    (runHi ops st w).precomp = st.precomp := by
  induction w with
  | nil => rfl
  | cons d rest ih => rw [runHi, doubleOnly_precomp, digitOnly_precomp, ih]

theorem add_assign_fst_ops {E Pub : Type} (a : PointVartime E Pub) (x y z : E) :
    (a.add_assign x y z).1.ops = a.ops := by
  obtain ⟨o, v⟩ := a
  cases v <;> rfl

theorem double_assign_fst_ops {E Pub : Type} (a : PointVartime E Pub) :
    (a.double_assign).1.ops = a.ops := by
  obtain ⟨o, v⟩ := a
  cases v <;> rfl

theorem digitOnly_acc_ops {E Pub : Type} (ops : CommonOps E Pub)
    (st : FoldState E Pub) (d : ℤ) :
    (digitOnly ops st d).acc.ops = st.acc.ops := by
  unfold digitOnly
  split
  · exact add_assign_fst_ops ..
  · rfl

theorem doubleOnly_acc_ops {E Pub : Type} (ops : CommonOps E Pub)
    (st : FoldState E Pub) : (doubleOnly ops st).acc.ops = st.acc.ops :=
  double_assign_fst_ops ..

theorem runHi_acc_ops {E Pub : Type} (ops : CommonOps E Pub)
    (st : FoldState E Pub) (w : List ℤ) :
    (runHi ops st w).acc.ops = st.acc.ops := by
  induction w with
  | nil => rfl
  | cons d rest ih => rw [runHi, doubleOnly_acc_ops, digitOnly_acc_ops, ih]

/-- Folding the digit step over the reversed enumeration-from-`n` of the
digit list, for `n ≥ 1`, is `runHi`: every digit is followed by a
doubling, most significant digit first. -/
theorem foldl_enumFrom_eq_runHi {E Pub : Type} (ops : CommonOps E Pub)
    (w : List ℤ) :
    ∀ (n : ℕ) (st : FoldState E Pub), n ≠ 0 →
      List.foldl (digitStep ops) st ((List.enumFrom n w).reverse) =
        runHi ops st w := by
  induction w with
  | nil => intro n st _; rfl
  | cons d rest ih =>
    intro n st hn
    have h1 : List.enumFrom n (d :: rest) = (n, d) :: List.enumFrom (n + 1) rest :=
      rfl
    rw [h1, List.reverse_cons, List.foldl_append, ih (n + 1) st (by omega)]
    show digitStep ops (runHi ops st rest) (n, d) = _
    unfold digitStep
    rw [if_pos hn]
    rfl

/-- The digit fold of `point_mul_vartime` is `runAll`: most significant
digit first, a doubling after every digit except the one at index 0. -/
theorem mulFold_eq_runAll {E Pub : Type} (ops : CommonOps E Pub)
    (wnaf : List ℤ) (x y : E) :
    mulFold ops wnaf x y = runAll ops (initState ops x y) wnaf := by
  unfold mulFold initState
  cases wnaf with
  | nil => rfl
  | cons d rest =>
    have h1 : List.enum (d :: rest) = (0, d) :: List.enumFrom 1 rest := rfl
    rw [h1, List.reverse_cons, List.foldl_append,
      foldl_enumFrom_eq_runHi ops rest 1 _ (by omega)]
    show digitStep ops (runHi ops _ rest) (0, d) = _
    unfold digitStep
    rw [if_neg (by simp)]
    rfl

/-! ## The precomputation table -/

theorem buildPrecomp_fst_length {E Pub : Type} (ops : CommonOps E Pub)
    (p2 : Pt E) : ∀ (k : ℕ) (e : Pt E), (buildPrecomp ops p2 e k).1.length = k + 1 := by
  intro k
  induction k with
  | zero => intro e; rfl
  | succ k ih =>
    intro e
    show (e :: (buildPrecomp ops p2 _ k).1).length = k + 1 + 1
    rw [List.length_cons, ih]

theorem iterEntry_shift {E Pub : Type} (ops : CommonOps E Pub) (p2 : Pt E)
    (e : Pt E) :
    ∀ i : ℕ, iterEntry ops p2 (ops.points_add_vartime p2 e.1 e.2.1 e.2.2) i =
      iterEntry ops p2 e (i + 1) := by
  intro i
  induction i with
  | zero => rfl
  | succ i ih =>
    show ops.points_add_vartime p2 (iterEntry ops p2 _ i).1 _ _ = _
    rw [ih]
    rfl

theorem buildPrecomp_getD {E Pub : Type} (ops : CommonOps E Pub) (p2 : Pt E) :
    ∀ (k i : ℕ) (e dflt : Pt E), i ≤ k →
      (buildPrecomp ops p2 e k).1.getD i dflt = iterEntry ops p2 e i := by
  intro k
  induction k with
  | zero =>
    intro i e dflt hi
    interval_cases i
    rfl
  | succ k ih =>
    intro i e dflt hi
    cases i with
    | zero => rfl
    | succ j =>
      show ((e :: (buildPrecomp ops p2 _ k).1).getD (j + 1) dflt) = _
      rw [List.getD_cons_succ, ih j _ dflt (by omega), iterEntry_shift]

/-! ## Arithmetic facts about wNAF digit sequences -/

theorem digitIdx_eq_natAbs_div_two (d : ℤ) : digitIdx d = d.natAbs / 2 := by
  unfold digitIdx
  rw [Nat.shiftRight_eq_div_pow]
  have h : (if d < 0 then -d else d).toNat = d.natAbs := by split <;> omega
  rw [h]

theorem wnafVal_all_zero {w : List ℤ} (h : ∀ d ∈ w, d = 0) : wnafVal w = 0 := by
  induction w with
  | nil => rfl
  | cons d rest ih =>
    rw [wnafVal, h d (by simp), ih fun d hd => h d (by simp [hd])]
    ring

theorem all_zero_of_wnafVal_zero {w : List ℤ} (hg : ∀ d ∈ w, wnafDigitOk d)
    (h : wnafVal w = 0) : ∀ d ∈ w, d = 0 := by
  induction w with
  | nil => simp
  | cons d rest ih =>
    rw [wnafVal] at h
    have hd : d = 0 := by
      by_contra hne
      have := (hg d (by simp)) hne
      omega
    intro e he
    rcases List.mem_cons.mp he with h1 | h1
    · rw [h1, hd]
    · exact ih (fun e he2 => hg e (by simp [he2])) (by omega) e h1

theorem wnafVal_take_drop (w : List ℤ) :
    ∀ j : ℕ, wnafVal w = wnafVal (w.take j) + 2 ^ j * wnafVal (w.drop j) := by
  induction w with
  | nil => intro j; simp [wnafVal]
  | cons d rest ih =>
    intro j
    cases j with
    | zero => simp [wnafVal]
    | succ j =>
      rw [List.take_succ_cons, List.drop_succ_cons, wnafVal, wnafVal, ih j]
      ring

theorem wnafVal_abs_le {w : List ℤ} (hg : ∀ d ∈ w, wnafDigitOk d) :
    |wnafVal w| ≤ 15 * (2 ^ w.length - 1) := by
  induction w with
  | nil => simp [wnafVal]
  | cons d rest ih =>
    have hd : |d| ≤ 15 := by
      rcases eq_or_ne d 0 with h | h
      · simp [h]
      · have h2 := (hg d (by simp)) h
        rw [Int.abs_eq_natAbs]
        exact_mod_cast h2.2
    have hr : |wnafVal rest| ≤ 15 * (2 ^ rest.length - 1) :=
      ih fun e he => hg e (by simp [he])
    have habs : |wnafVal (d :: rest)| ≤ |d| + 2 * |wnafVal rest| := by
      rw [wnafVal]
      calc |d + 2 * wnafVal rest| ≤ |d| + |2 * wnafVal rest| := abs_add ..
        _ = |d| + 2 * |wnafVal rest| := by rw [abs_mul]; norm_num
    have hpow : (2 : ℤ) ^ (d :: rest).length = 2 * 2 ^ rest.length := by
      rw [List.length_cons, pow_succ]
      ring
    have h1 : (1 : ℤ) ≤ 2 ^ rest.length := one_le_pow₀ (by norm_num)
    rw [hpow]
    linarith

theorem odd_dvd_of_dvd_two_mul {n x : ℤ} (hodd : ¬ ((2 : ℤ) ∣ n))
    (h : n ∣ 2 * x) : n ∣ x := by
  have hcop : IsCoprime n 2 := by
    rw [Int.isCoprime_iff_gcd_eq_one]
    have hg2 : Int.gcd n 2 ∣ 2 := by
      have h2 : ((Int.gcd n 2 : ℕ) : ℤ) ∣ 2 := Int.gcd_dvd_right
      exact_mod_cast h2
    rcases (Nat.Prime.eq_one_or_self_of_dvd Nat.prime_two _ hg2) with h1 | h1
    · exact h1
    · exfalso
      apply hodd
      have h3 : ((Int.gcd n 2 : ℕ) : ℤ) ∣ n := Int.gcd_dvd_left
      rw [h1] at h3
      exact_mod_cast h3
  exact hcop.dvd_of_dvd_mul_left h

/-- The spec's reduced-scalar hypotheses force every nonzero tail of the
digit sequence to denote a value not divisible by the group order: this
is what makes every accumulator value met by an addition a non-infinity
point. -/
theorem safe_tails {n : ℕ} {w : List ℤ} (hg : ∀ d ∈ w, wnafDigitOk d)
    (hodd : ¬ (2 ∣ n)) (hbig : 15 < n) (h0 : 0 ≤ wnafVal w)
    (h1 : wnafVal w < (n : ℤ)) :
    ∀ j : ℕ, (∃ d ∈ w.drop j, d ≠ 0) → ¬ ((n : ℤ) ∣ wnafVal (w.drop j)) := by
  intro j hex hdvd
  obtain ⟨d, hd, hdne⟩ := hex
  have hgt : ∀ e ∈ w.drop j, wnafDigitOk e := fun e he =>
    hg e (List.drop_subset j w he)
  have hvne : wnafVal (w.drop j) ≠ 0 := by
    intro hz
    exact hdne (all_zero_of_wnafVal_zero hgt hz d hd)
  have habs : (n : ℤ) ≤ |wnafVal (w.drop j)| := by
    apply Int.le_of_dvd (by positivity) ((dvd_abs _ _).mpr hdvd)
  have hsplit := wnafVal_take_drop w j
  have htk : |wnafVal (w.take j)| ≤ 15 * (2 ^ j - 1) := by
    have h2 : |wnafVal (w.take j)| ≤ 15 * (2 ^ (w.take j).length - 1) :=
      wnafVal_abs_le fun e he => hg e (List.take_subset j w he)
    have h3 : (2 : ℤ) ^ (w.take j).length ≤ 2 ^ j := by
      apply pow_le_pow_right₀ (by norm_num)
      exact List.length_take_le j w
    linarith
  have hj1 : (1 : ℤ) ≤ 2 ^ j := one_le_pow₀ (by norm_num)
  have hn15 : (15 : ℤ) < (n : ℤ) := by exact_mod_cast hbig
  have habs2 := abs_le.mp htk
  rcases le_abs.mp habs with hv | hv
  · -- the tail denotes at least n: the whole value would be ≥ n
    have hmul : 2 ^ j * (n : ℤ) ≤ 2 ^ j * wnafVal (w.drop j) :=
      mul_le_mul_of_nonneg_left hv (by positivity)
    nlinarith [mul_le_mul_of_nonneg_right hj1 (le_of_lt (lt_trans (by norm_num) hn15))]
  · -- the tail denotes at most -n: the whole value would be negative
    have hv2 : wnafVal (w.drop j) ≤ -(n : ℤ) := by omega
    have hmul : 2 ^ j * wnafVal (w.drop j) ≤ 2 ^ j * (-(n : ℤ)) :=
      mul_le_mul_of_nonneg_left hv2 (by positivity)
    nlinarith [mul_le_mul_of_nonneg_right hj1 (le_of_lt (lt_trans (by norm_num) hn15))]

/-! ## Semantics of one digit step -/

/-- The triple the digit branch hands to `add_assign`: the table entry at
`digitIdx digit`, with the Y coordinate negated (in a local copy) when the
digit is negative. -/
def entryTriple {E Pub : Type} (ops : CommonOps E Pub) (pre : List (Pt E))
    (digit : ℤ) : Pt E :=
  let entry := pre.getD (digitIdx digit) (ops.zero, ops.zero, ops.zero)
  (entry.1,
   if digit < 0 then ops.elem_negate_vartime entry.2.1 else entry.2.1,
   entry.2.2)

theorem digitOnly_eq {E Pub : Type} (ops : CommonOps E Pub)
    (st : FoldState E Pub) (d : ℤ) (hd : d ≠ 0) :
    digitOnly ops st d =
      ⟨st.precomp,
       (st.acc.add_assign (entryTriple ops st.precomp d).1
          (entryTriple ops st.precomp d).2.1 (entryTriple ops st.precomp d).2.2).1,
       st.calls ++
         (st.acc.add_assign (entryTriple ops st.precomp d).1
            (entryTriple ops st.precomp d).2.1
            (entryTriple ops st.precomp d).2.2).2⟩ := by
  unfold digitOnly
  rw [if_pos hd]
  rfl

theorem digitOnly_nonzero_none {E Pub : Type} (ops : CommonOps E Pub)
    (st : FoldState E Pub) (d : ℤ) (hd : d ≠ 0) (h : st.acc.value = none) :
    digitOnly ops st d =
      ⟨st.precomp, ⟨st.acc.ops, some (entryTriple ops st.precomp d)⟩, st.calls⟩ := by
  obtain ⟨pre, ⟨o, v⟩, cs⟩ := st
  have hv : v = none := h
  subst hv
  rw [digitOnly_eq ops _ d hd, add_assign_mk_none, List.append_nil]

theorem digitOnly_nonzero_some {E Pub : Type} (ops : CommonOps E Pub)
    (st : FoldState E Pub) (d : ℤ) (v : Pt E) (hd : d ≠ 0)
    (h : st.acc.value = some v) :
    digitOnly ops st d =
      ⟨st.precomp,
       ⟨st.acc.ops, some (st.acc.ops.points_add_vartime v
          (entryTriple ops st.precomp d).1 (entryTriple ops st.precomp d).2.1
          (entryTriple ops st.precomp d).2.2)⟩,
       st.calls ++ [PrimCall.add v (entryTriple ops st.precomp d)]⟩ := by
  obtain ⟨pre, ⟨o, w⟩, cs⟩ := st
  have hv : w = some v := h
  subst hv
  rw [digitOnly_eq ops _ d hd, add_assign_mk_some]

theorem doubleOnly_none {E Pub : Type} (ops : CommonOps E Pub)
    (st : FoldState E Pub) (h : st.acc.value = none) :
    doubleOnly ops st = ⟨st.precomp, st.acc, st.calls⟩ := by
  obtain ⟨pre, ⟨o, v⟩, cs⟩ := st
  have hv : v = none := h
  subst hv
  show (⟨pre, ⟨o, none⟩, cs ++ []⟩ : FoldState E Pub) = _
  rw [List.append_nil]

theorem doubleOnly_some {E Pub : Type} (ops : CommonOps E Pub)
    (st : FoldState E Pub) (v : Pt E) (h : st.acc.value = some v) :
    doubleOnly ops st =
      ⟨st.precomp, ⟨st.acc.ops, some (st.acc.ops.point_double v)⟩,
       st.calls ++ [PrimCall.dbl v]⟩ := by
  obtain ⟨pre, ⟨o, w⟩, cs⟩ := st
  have hv : w = some v := h
  subst hv
  rfl

/-! ## Semantics of the precomputation table -/

theorem not_dvd_of_small {n : ℕ} (hbig : 15 < n) {c : ℤ} (h0 : 0 < c)
    (h15 : c ≤ 15) : ¬ ((n : ℤ) ∣ c) := by
  intro hdvd
  have := Int.le_of_dvd h0 hdvd
  omega

theorem toGrp_iterEntry {E Pub G : Type} [AddCommGroup G]
    (M : SpecModel E Pub G) (x y : E)
    (hord : ∀ m : ℤ, m • M.toGrp (entry0 M.ops x y) = 0 ↔ (M.n : ℤ) ∣ m) :
    ∀ i : ℕ, i < PRECOMP_SIZE →
      M.toGrp (iterEntry M.ops (M.ops.point_double (entry0 M.ops x y))
          (entry0 M.ops x y) i) =
        (2 * (i : ℤ) + 1) • M.toGrp (entry0 M.ops x y) := by
  intro i
  induction i with
  | zero =>
    intro _
    show M.toGrp (entry0 M.ops x y) = (1 : ℤ) • M.toGrp (entry0 M.ops x y)
    rw [one_zsmul]
  | succ i ih =>
    intro hi
    have hi7 : i < PRECOMP_SIZE := by omega
    have hprev := ih hi7
    have hp2 : M.toGrp (M.ops.point_double (entry0 M.ops x y)) =
        (2 : ℤ) • M.toGrp (entry0 M.ops x y) := M.double_spec _
    have hp2ne : M.toGrp (M.ops.point_double (entry0 M.ops x y)) ≠ 0 := by
      rw [hp2]
      intro h
      exact not_dvd_of_small M.n_big (by norm_num) (by norm_num) ((hord 2).mp h)
    have hprevne : M.toGrp (iterEntry M.ops (M.ops.point_double (entry0 M.ops x y))
        (entry0 M.ops x y) i) ≠ 0 := by
      rw [hprev]
      intro h
      have hle : 2 * (i : ℤ) + 1 ≤ 15 := by
        have : i < PRECOMP_SIZE := hi7
        have h8 : PRECOMP_SIZE = 8 := by decide
        omega
      exact not_dvd_of_small M.n_big (by positivity) hle ((hord _).mp h)
    show M.toGrp (M.ops.points_add_vartime (M.ops.point_double (entry0 M.ops x y))
        (iterEntry M.ops _ _ i).1 (iterEntry M.ops _ _ i).2.1
        (iterEntry M.ops _ _ i).2.2) = _
    rw [M.add_spec _ _ _ _ hp2ne hprevne, hp2, hprev, ← add_zsmul]
    congr 1
    push_cast
    ring

theorem precompAll_getD {E Pub : Type} (ops : CommonOps E Pub) (x y : E)
    (i : ℕ) (hi : i < PRECOMP_SIZE) (dflt : Pt E) :
    (precompAll ops x y).1.getD i dflt =
      iterEntry ops (ops.point_double (entry0 ops x y)) (entry0 ops x y) i := by
  have h8 : PRECOMP_SIZE = 8 := by decide
  exact buildPrecomp_getD ops _ (PRECOMP_SIZE - 1) i _ dflt (by omega)

/-- The triple handed to `add_assign` for a contract-conforming nonzero
digit `d` represents `d · P` and is not the point at infinity. -/
theorem entryTriple_spec {E Pub G : Type} [AddCommGroup G]
    (M : SpecModel E Pub G) (x y : E)
    (hord : ∀ m : ℤ, m • M.toGrp (entry0 M.ops x y) = 0 ↔ (M.n : ℤ) ∣ m)
    {d : ℤ} (hok : wnafDigitOk d) (hd : d ≠ 0) :
    M.toGrp (entryTriple M.ops (precompAll M.ops x y).1 d) =
        d • M.toGrp (entry0 M.ops x y) ∧
      M.toGrp (entryTriple M.ops (precompAll M.ops x y).1 d) ≠ 0 := by
  obtain ⟨h2, h15⟩ := hok hd
  have h8 : PRECOMP_SIZE = 8 := by decide
  have hidx : digitIdx d < PRECOMP_SIZE := by
    rw [digitIdx_eq_natAbs_div_two]
    omega
  have hEg : M.toGrp ((precompAll M.ops x y).1.getD (digitIdx d)
        (M.ops.zero, M.ops.zero, M.ops.zero)) =
      (2 * (digitIdx d : ℤ) + 1) • M.toGrp (entry0 M.ops x y) := by
    rw [precompAll_getD M.ops x y (digitIdx d) hidx]
    exact toGrp_iterEntry M x y hord _ hidx
  have hcoef : (2 * (digitIdx d : ℤ) + 1) = (d.natAbs : ℤ) := by
    rw [digitIdx_eq_natAbs_div_two]
    omega
  have hdnd : ¬ ((M.n : ℤ) ∣ d) := by
    intro hdvd
    have hnd : M.n ∣ d.natAbs := by
      have h3 := Int.natAbs_dvd_natAbs.mpr hdvd
      rwa [Int.natAbs_ofNat] at h3
    have h4 : M.n ≤ d.natAbs := Nat.le_of_dvd (by omega) hnd
    have h5 := M.n_big
    omega
  by_cases hneg : d < 0
  · have ht : entryTriple M.ops (precompAll M.ops x y).1 d =
        (((precompAll M.ops x y).1.getD (digitIdx d)
            (M.ops.zero, M.ops.zero, M.ops.zero)).1,
         M.ops.elem_negate_vartime (((precompAll M.ops x y).1.getD (digitIdx d)
            (M.ops.zero, M.ops.zero, M.ops.zero)).2.1),
         ((precompAll M.ops x y).1.getD (digitIdx d)
            (M.ops.zero, M.ops.zero, M.ops.zero)).2.2) := by
      simp only [entryTriple]
      rw [if_pos hneg]
    have hg1 : M.toGrp (entryTriple M.ops (precompAll M.ops x y).1 d) =
        d • M.toGrp (entry0 M.ops x y) := by
      rw [ht, M.neg_spec]
      have heta : ((((precompAll M.ops x y).1.getD (digitIdx d)
          (M.ops.zero, M.ops.zero, M.ops.zero)).1,
          ((precompAll M.ops x y).1.getD (digitIdx d)
            (M.ops.zero, M.ops.zero, M.ops.zero)).2.1,
          ((precompAll M.ops x y).1.getD (digitIdx d)
            (M.ops.zero, M.ops.zero, M.ops.zero)).2.2) : Pt E) =
          (precompAll M.ops x y).1.getD (digitIdx d)
            (M.ops.zero, M.ops.zero, M.ops.zero) := rfl
      rw [heta, hEg, hcoef, ← neg_zsmul]
      congr 1
      omega
    refine ⟨hg1, ?_⟩
    rw [hg1]
    intro h
    exact hdnd ((hord d).mp h)
  · have ht : entryTriple M.ops (precompAll M.ops x y).1 d =
        (precompAll M.ops x y).1.getD (digitIdx d)
          (M.ops.zero, M.ops.zero, M.ops.zero) := by
      simp only [entryTriple]
      rw [if_neg hneg]
    have hg1 : M.toGrp (entryTriple M.ops (precompAll M.ops x y).1 d) =
        d • M.toGrp (entry0 M.ops x y) := by
      rw [ht, hEg, hcoef]
      congr 1
      omega
    refine ⟨hg1, ?_⟩
    rw [hg1]
    intro h
    exact hdnd ((hord d).mp h)

/-! ## The main fold invariant -/

/-- Core invariant of the digit fold over the positions `≥ 1` (each digit
followed by a doubling): the accumulator is at infinity exactly while all
digits seen are zero, otherwise it holds a triple representing
`(2 * value of the processed digits) · P`; and every addition performed
had two non-infinity operands. -/
theorem runHi_spec {E Pub G : Type} [AddCommGroup G] (M : SpecModel E Pub G)
    (x y : E)
    (hord : ∀ m : ℤ, m • M.toGrp (entry0 M.ops x y) = 0 ↔ (M.n : ℤ) ∣ m) :
    ∀ w : List ℤ, (∀ d ∈ w, wnafDigitOk d) →
      (∀ j : ℕ, (∃ d ∈ w.drop j, d ≠ 0) → ¬ ((M.n : ℤ) ∣ wnafVal (w.drop j))) →
      ((∀ d ∈ w, d = 0) →
        (runHi M.ops (initState M.ops x y) w).acc.value = none) ∧
      ((∃ d ∈ w, d ≠ 0) → ∃ v : Pt E,
        (runHi M.ops (initState M.ops x y) w).acc.value = some v ∧
        M.toGrp v = (2 * wnafVal w) • M.toGrp (entry0 M.ops x y)) ∧
      (∀ cl ∈ (runHi M.ops (initState M.ops x y) w).calls,
        addCallOk M.toGrp cl) := by
  intro w
  induction w with
  | nil =>
    intro _ _
    refine ⟨fun _ => rfl, ?_, ?_⟩
    · rintro ⟨d, hd, _⟩
      simp at hd
    · intro cl hcl
      simp only [runHi, initState] at hcl
      simp at hcl
  | cons d rest ih =>
    intro hg hsafe
    have hgr : ∀ e ∈ rest, wnafDigitOk e := fun e he => hg e (by simp [he])
    have hsr : ∀ j : ℕ, (∃ e ∈ rest.drop j, e ≠ 0) →
        ¬ ((M.n : ℤ) ∣ wnafVal (rest.drop j)) := fun j => hsafe (j + 1)
    obtain ⟨ih1, ih2, ih3⟩ := ih hgr hsr
    have hrun : runHi M.ops (initState M.ops x y) (d :: rest) =
        doubleOnly M.ops
          (digitOnly M.ops (runHi M.ops (initState M.ops x y) rest) d) := rfl
    have hpre2 : (runHi M.ops (initState M.ops x y) rest).precomp =
        (precompAll M.ops x y).1 := runHi_precomp M.ops (initState M.ops x y) rest
    have hops2 : (runHi M.ops (initState M.ops x y) rest).acc.ops = M.ops :=
      runHi_acc_ops M.ops (initState M.ops x y) rest
    by_cases hz : ∀ e ∈ rest, e = 0
    · have h1 : (runHi M.ops (initState M.ops x y) rest).acc.value = none := ih1 hz
      by_cases hd : d = 0
      · -- all digits so far are zero: the accumulator stays at infinity
        have hres : runHi M.ops (initState M.ops x y) (d :: rest) =
            ⟨(runHi M.ops (initState M.ops x y) rest).precomp,
             (runHi M.ops (initState M.ops x y) rest).acc,
             (runHi M.ops (initState M.ops x y) rest).calls⟩ := by
          rw [hrun, hd, digitOnly_zero_digit, doubleOnly_none M.ops _ h1]
        refine ⟨fun _ => by rw [hres]; exact h1, ?_, ?_⟩
        · rintro ⟨e, he, hne⟩
          rcases List.mem_cons.mp he with h | h
          · exact absurd (h.trans hd) hne
          · exact absurd (hz e h) hne
        · intro cl hcl
          rw [hres] at hcl
          exact ih3 cl hcl
      · -- first nonzero digit: it becomes the accumulator, then a doubling
        have hts := entryTriple_spec M x y hord (hg d (by simp)) hd
        have hdig := digitOnly_nonzero_none M.ops _ d hd h1
        rw [hpre2, hops2] at hdig
        have hres : runHi M.ops (initState M.ops x y) (d :: rest) =
            ⟨(precompAll M.ops x y).1,
             ⟨M.ops, some (M.ops.point_double
               (entryTriple M.ops (precompAll M.ops x y).1 d))⟩,
             (runHi M.ops (initState M.ops x y) rest).calls ++
               [PrimCall.dbl (entryTriple M.ops (precompAll M.ops x y).1 d)]⟩ := by
          rw [hrun, hdig]
          rfl
        refine ⟨fun hall => absurd (hall d (by simp)) hd, ?_, ?_⟩
        · intro _
          refine ⟨M.ops.point_double (entryTriple M.ops (precompAll M.ops x y).1 d),
            by rw [hres], ?_⟩
          rw [M.double_spec, hts.1, ← mul_zsmul]
          congr 1
          rw [wnafVal, wnafVal_all_zero hz]
          ring
        · intro cl hcl
          rw [hres] at hcl
          rcases List.mem_append.mp hcl with h | h
          · exact ih3 cl h
          · rw [List.mem_singleton.mp h]
            trivial
    · -- the accumulator already holds a value representing 2·(value of rest)·P
      have hz2 : ∃ e ∈ rest, e ≠ 0 := by
        push_neg at hz
        exact hz
      obtain ⟨v1, hv1, hv1g⟩ := ih2 hz2
      have hodd2 : ¬ ((2 : ℤ) ∣ (M.n : ℤ)) := by
        intro h
        exact M.n_odd (by exact_mod_cast h)
      have hrdvd : ¬ ((M.n : ℤ) ∣ wnafVal rest) := hsafe 1 hz2
      have hv1ne : M.toGrp v1 ≠ 0 := by
        rw [hv1g]
        intro h
        exact hrdvd (odd_dvd_of_dvd_two_mul hodd2 ((hord _).mp h))
      by_cases hd : d = 0
      · -- zero digit: only the doubling happens
        subst hd
        have hres : runHi M.ops (initState M.ops x y) ((0 : ℤ) :: rest) =
            ⟨(runHi M.ops (initState M.ops x y) rest).precomp,
             ⟨M.ops, some (M.ops.point_double v1)⟩,
             (runHi M.ops (initState M.ops x y) rest).calls ++
               [PrimCall.dbl v1]⟩ := by
          rw [hrun, digitOnly_zero_digit, doubleOnly_some M.ops _ v1 hv1, hops2]
        refine ⟨?_, ?_, ?_⟩
        · intro hall
          obtain ⟨e, he, hne⟩ := hz2
          exact absurd (hall e (by simp [he])) hne
        · intro _
          refine ⟨M.ops.point_double v1, by rw [hres], ?_⟩
          rw [M.double_spec, hv1g, ← mul_zsmul]
          congr 1
          rw [wnafVal]
          ring
        · intro cl hcl
          rw [hres] at hcl
          rcases List.mem_append.mp hcl with h | h
          · exact ih3 cl h
          · rw [List.mem_singleton.mp h]
            trivial
      · -- nonzero digit into a live accumulator: a real addition, then doubling
        have hts := entryTriple_spec M x y hord (hg d (by simp)) hd
        have hdig := digitOnly_nonzero_some M.ops _ d v1 hd hv1
        rw [hpre2, hops2] at hdig
        have hres : runHi M.ops (initState M.ops x y) (d :: rest) =
            ⟨(precompAll M.ops x y).1,
             ⟨M.ops, some (M.ops.point_double (M.ops.points_add_vartime v1
               (entryTriple M.ops (precompAll M.ops x y).1 d).1
               (entryTriple M.ops (precompAll M.ops x y).1 d).2.1
               (entryTriple M.ops (precompAll M.ops x y).1 d).2.2))⟩,
             (runHi M.ops (initState M.ops x y) rest).calls ++
               [PrimCall.add v1 (entryTriple M.ops (precompAll M.ops x y).1 d)] ++
               [PrimCall.dbl (M.ops.points_add_vartime v1
                 (entryTriple M.ops (precompAll M.ops x y).1 d).1
                 (entryTriple M.ops (precompAll M.ops x y).1 d).2.1
                 (entryTriple M.ops (precompAll M.ops x y).1 d).2.2)]⟩ := by
          rw [hrun, hdig]
          rfl
        have haddg : M.toGrp (M.ops.points_add_vartime v1
            (entryTriple M.ops (precompAll M.ops x y).1 d).1
            (entryTriple M.ops (precompAll M.ops x y).1 d).2.1
            (entryTriple M.ops (precompAll M.ops x y).1 d).2.2) =
            (2 * wnafVal rest + d) • M.toGrp (entry0 M.ops x y) := by
          have hne2 : M.toGrp ((entryTriple M.ops (precompAll M.ops x y).1 d).1,
              (entryTriple M.ops (precompAll M.ops x y).1 d).2.1,
              (entryTriple M.ops (precompAll M.ops x y).1 d).2.2) ≠ 0 := hts.2
          rw [M.add_spec v1 (entryTriple M.ops (precompAll M.ops x y).1 d).1
            (entryTriple M.ops (precompAll M.ops x y).1 d).2.1
            (entryTriple M.ops (precompAll M.ops x y).1 d).2.2 hv1ne hne2, hv1g]
          have heta : M.toGrp ((entryTriple M.ops (precompAll M.ops x y).1 d).1,
              (entryTriple M.ops (precompAll M.ops x y).1 d).2.1,
              (entryTriple M.ops (precompAll M.ops x y).1 d).2.2) =
              M.toGrp (entryTriple M.ops (precompAll M.ops x y).1 d) := rfl
          rw [heta, hts.1, ← add_zsmul]
        refine ⟨fun hall => absurd (hall d (by simp)) hd, ?_, ?_⟩
        · intro _
          refine ⟨_, by rw [hres], ?_⟩
          rw [M.double_spec, haddg, ← mul_zsmul]
          congr 1
          rw [wnafVal]
          ring
        · intro cl hcl
          rw [hres] at hcl
          rcases List.mem_append.mp hcl with h | h
          · rcases List.mem_append.mp h with h2 | h2
            · exact ih3 cl h2
            · rw [List.mem_singleton.mp h2]
              exact ⟨hv1ne, hts.2⟩
          · rw [List.mem_singleton.mp h]
            trivial

/-- The whole digit fold: value semantics, infinity tracking and
admissibility of every addition call. -/
theorem runAll_spec {E Pub G : Type} [AddCommGroup G] (M : SpecModel E Pub G)
    (x y : E)
    (hord : ∀ m : ℤ, m • M.toGrp (entry0 M.ops x y) = 0 ↔ (M.n : ℤ) ∣ m)
    (w : List ℤ) (hg : ∀ d ∈ w, wnafDigitOk d)
    (hsafe : ∀ j : ℕ, (∃ d ∈ w.drop j, d ≠ 0) →
      ¬ ((M.n : ℤ) ∣ wnafVal (w.drop j))) :
    ((∀ d ∈ w, d = 0) →
      (runAll M.ops (initState M.ops x y) w).acc.value = none) ∧
    ((∃ d ∈ w, d ≠ 0) → ∃ v : Pt E,
      (runAll M.ops (initState M.ops x y) w).acc.value = some v ∧
      M.toGrp v = (wnafVal w) • M.toGrp (entry0 M.ops x y)) ∧
    (∀ cl ∈ (runAll M.ops (initState M.ops x y) w).calls,
      addCallOk M.toGrp cl) := by
  cases w with
  | nil =>
    refine ⟨fun _ => rfl, ?_, ?_⟩
    · rintro ⟨d, hd, _⟩
      simp at hd
    · intro cl hcl
      simp only [runAll, initState] at hcl
      simp at hcl
  | cons d rest =>
    have hgr : ∀ e ∈ rest, wnafDigitOk e := fun e he => hg e (by simp [he])
    have hsr : ∀ j : ℕ, (∃ e ∈ rest.drop j, e ≠ 0) →
        ¬ ((M.n : ℤ) ∣ wnafVal (rest.drop j)) := fun j => hsafe (j + 1)
    obtain ⟨ih1, ih2, ih3⟩ := runHi_spec M x y hord rest hgr hsr
    have hrun : runAll M.ops (initState M.ops x y) (d :: rest) =
        digitOnly M.ops (runHi M.ops (initState M.ops x y) rest) d := rfl
    have hpre2 : (runHi M.ops (initState M.ops x y) rest).precomp =
        (precompAll M.ops x y).1 := runHi_precomp M.ops (initState M.ops x y) rest
    have hops2 : (runHi M.ops (initState M.ops x y) rest).acc.ops = M.ops :=
      runHi_acc_ops M.ops (initState M.ops x y) rest
    by_cases hz : ∀ e ∈ rest, e = 0
    · have h1 : (runHi M.ops (initState M.ops x y) rest).acc.value = none := ih1 hz
      by_cases hd : d = 0
      · have hres : runAll M.ops (initState M.ops x y) (d :: rest) =
            runHi M.ops (initState M.ops x y) rest := by
          rw [hrun, hd, digitOnly_zero_digit]
        refine ⟨fun _ => by rw [hres]; exact h1, ?_, ?_⟩
        · rintro ⟨e, he, hne⟩
          rcases List.mem_cons.mp he with h | h
          · exact absurd (h.trans hd) hne
          · exact absurd (hz e h) hne
        · intro cl hcl
          rw [hres] at hcl
          exact ih3 cl hcl
      · have hts := entryTriple_spec M x y hord (hg d (by simp)) hd
        have hdig := digitOnly_nonzero_none M.ops _ d hd h1
        rw [hpre2, hops2] at hdig
        have hres : runAll M.ops (initState M.ops x y) (d :: rest) =
            ⟨(precompAll M.ops x y).1,
             ⟨M.ops, some (entryTriple M.ops (precompAll M.ops x y).1 d)⟩,
             (runHi M.ops (initState M.ops x y) rest).calls⟩ := by
          rw [hrun, hdig]
        refine ⟨fun hall => absurd (hall d (by simp)) hd, ?_, ?_⟩
        · intro _
          refine ⟨entryTriple M.ops (precompAll M.ops x y).1 d, by rw [hres], ?_⟩
          rw [hts.1]
          congr 1
          rw [wnafVal, wnafVal_all_zero hz]
          ring
        · intro cl hcl
          rw [hres] at hcl
          exact ih3 cl hcl
    · have hz2 : ∃ e ∈ rest, e ≠ 0 := by
        push_neg at hz
        exact hz
      obtain ⟨v1, hv1, hv1g⟩ := ih2 hz2
      have hodd2 : ¬ ((2 : ℤ) ∣ (M.n : ℤ)) := by
        intro h
        exact M.n_odd (by exact_mod_cast h)
      have hrdvd : ¬ ((M.n : ℤ) ∣ wnafVal rest) := hsafe 1 hz2
      have hv1ne : M.toGrp v1 ≠ 0 := by
        rw [hv1g]
        intro h
        exact hrdvd (odd_dvd_of_dvd_two_mul hodd2 ((hord _).mp h))
      by_cases hd : d = 0
      · subst hd
        have hres : runAll M.ops (initState M.ops x y) ((0 : ℤ) :: rest) =
            runHi M.ops (initState M.ops x y) rest := by
          rw [hrun, digitOnly_zero_digit]
        refine ⟨?_, ?_, ?_⟩
        · intro hall
          obtain ⟨e, he, hne⟩ := hz2
          exact absurd (hall e (by simp [he])) hne
        · intro _
          refine ⟨v1, by rw [hres]; exact hv1, ?_⟩
          rw [hv1g]
          congr 1
          rw [wnafVal]
          ring
        · intro cl hcl
          rw [hres] at hcl
          exact ih3 cl hcl
      · have hts := entryTriple_spec M x y hord (hg d (by simp)) hd
        have hdig := digitOnly_nonzero_some M.ops _ d v1 hd hv1
        rw [hpre2, hops2] at hdig
        have hres : runAll M.ops (initState M.ops x y) (d :: rest) =
            ⟨(precompAll M.ops x y).1,
             ⟨M.ops, some (M.ops.points_add_vartime v1
               (entryTriple M.ops (precompAll M.ops x y).1 d).1
               (entryTriple M.ops (precompAll M.ops x y).1 d).2.1
               (entryTriple M.ops (precompAll M.ops x y).1 d).2.2)⟩,
             (runHi M.ops (initState M.ops x y) rest).calls ++
               [PrimCall.add v1 (entryTriple M.ops (precompAll M.ops x y).1 d)]⟩ := by
          rw [hrun, hdig]
        have hne2 : M.toGrp ((entryTriple M.ops (precompAll M.ops x y).1 d).1,
            (entryTriple M.ops (precompAll M.ops x y).1 d).2.1,
            (entryTriple M.ops (precompAll M.ops x y).1 d).2.2) ≠ 0 := hts.2
        have haddg : M.toGrp (M.ops.points_add_vartime v1
            (entryTriple M.ops (precompAll M.ops x y).1 d).1
            (entryTriple M.ops (precompAll M.ops x y).1 d).2.1
            (entryTriple M.ops (precompAll M.ops x y).1 d).2.2) =
            (wnafVal (d :: rest)) • M.toGrp (entry0 M.ops x y) := by
          rw [M.add_spec v1 (entryTriple M.ops (precompAll M.ops x y).1 d).1
            (entryTriple M.ops (precompAll M.ops x y).1 d).2.1
            (entryTriple M.ops (precompAll M.ops x y).1 d).2.2 hv1ne hne2, hv1g]
          have heta : M.toGrp ((entryTriple M.ops (precompAll M.ops x y).1 d).1,
              (entryTriple M.ops (precompAll M.ops x y).1 d).2.1,
              (entryTriple M.ops (precompAll M.ops x y).1 d).2.2) =
              M.toGrp (entryTriple M.ops (precompAll M.ops x y).1 d) := rfl
          rw [heta, hts.1, ← add_zsmul]
          congr 1
          rw [wnafVal]
          ring
        refine ⟨fun hall => absurd (hall d (by simp)) hd, ?_, ?_⟩
        · intro _
          exact ⟨_, by rw [hres], haddg⟩
        · intro cl hcl
          rw [hres] at hcl
          rcases List.mem_append.mp hcl with h | h
          · exact ih3 cl h
          · rw [List.mem_singleton.mp h]
            exact ⟨hv1ne, hts.2⟩

theorem buildPrecomp_snd {E Pub : Type} (ops : CommonOps E Pub) (p2 : Pt E) :
    ∀ (k : ℕ) (e : Pt E), (buildPrecomp ops p2 e k).2 =
      (List.range k).map (fun i => PrimCall.add p2 (iterEntry ops p2 e i)) := by
  intro k
  induction k with
  | zero => intro e; rfl
  | succ k ih =>
    intro e
    show PrimCall.add p2 e :: (buildPrecomp ops p2 _ k).2 = _
    rw [ih, List.range_succ_eq_map, List.map_cons, List.map_map]
    congr 1
    apply List.map_congr_left
    intro i _
    show PrimCall.add p2 (iterEntry ops p2 _ i) = _
    rw [iterEntry_shift]
    rfl

/-- Every addition the precomputation performs combines `2P` with an odd
multiple `(2i+1)·P`, `i < 7`: neither operand is the point at
infinity. -/
theorem precompAll_calls_ok {E Pub G : Type} [AddCommGroup G]
    (M : SpecModel E Pub G) (x y : E)
    (hord : ∀ m : ℤ, m • M.toGrp (entry0 M.ops x y) = 0 ↔ (M.n : ℤ) ∣ m) :
    ∀ cl ∈ (precompAll M.ops x y).2, addCallOk M.toGrp cl := by
  intro cl hcl
  have h8 : PRECOMP_SIZE = 8 := by decide
  have hshape : (precompAll M.ops x y).2 =
      PrimCall.dbl (entry0 M.ops x y) ::
        (List.range (PRECOMP_SIZE - 1)).map (fun i => PrimCall.add
          (M.ops.point_double (entry0 M.ops x y))
          (iterEntry M.ops (M.ops.point_double (entry0 M.ops x y))
            (entry0 M.ops x y) i)) := by
    show PrimCall.dbl (entry0 M.ops x y) :: (buildPrecomp M.ops _ _ _).2 = _
    rw [buildPrecomp_snd]
  rw [hshape] at hcl
  rcases List.mem_cons.mp hcl with h | h
  · rw [h]
    trivial
  · obtain ⟨i, hi, hcl2⟩ := List.mem_map.mp h
    have hi7 : i < PRECOMP_SIZE := by
      have := List.mem_range.mp hi
      omega
    rw [← hcl2]
    refine ⟨?_, ?_⟩
    · rw [M.double_spec]
      intro h2
      exact not_dvd_of_small M.n_big (by norm_num) (by norm_num) ((hord 2).mp h2)
    · rw [toGrp_iterEntry M x y hord i hi7]
      intro h2
      have hle : 2 * (i : ℤ) + 1 ≤ 15 := by omega
      exact not_dvd_of_small M.n_big (by positivity) hle ((hord _).mp h2)

/-- Master semantic theorem for `point_mul_vartime` under the
spec-modelled contracts: the recoder's digit-sequence contract for a
reduced scalar, and a base point of exact order `n`.  Gives the value of
the result, the infinity bookkeeping, and that every addition call had
non-infinity operands. -/
theorem point_mul_vartime_spec {E Pub G : Type} [AddCommGroup G]
    (M : SpecModel E Pub G) (x y : E)
    (hord : ∀ m : ℤ, m • M.toGrp (entry0 M.ops x y) = 0 ↔ (M.n : ℤ) ∣ m)
    (w : List ℤ) (hg : ∀ d ∈ w, wnafDigitOk d)
    (h0 : 0 ≤ wnafVal w) (h1 : wnafVal w < (M.n : ℤ)) :
    M.toGrp (point_mul_vartime M.ops w (x, y)).1 =
        (wnafVal w) • M.toGrp (entry0 M.ops x y) ∧
      ((mulFold M.ops w x y).acc.value = none ↔ ∀ d ∈ w, d = 0) ∧
      ((point_mul_vartime M.ops w (x, y)).1 =
          (M.ops.zero, M.ops.zero, M.ops.zero) ↔ ∀ d ∈ w, d = 0) ∧
      (∀ v : Pt E, (mulFold M.ops w x y).acc.value = some v →
        (point_mul_vartime M.ops w (x, y)).1 = v) ∧
      (∀ cl ∈ (point_mul_vartime M.ops w (x, y)).2, addCallOk M.toGrp cl) := by
  have h1n : wnafVal w < ((M.n : ℕ) : ℤ) := h1
  have hsafe := safe_tails hg M.n_odd M.n_big h0 h1n
  obtain ⟨r1, r2, r3⟩ := runAll_spec M x y hord w hg hsafe
  have hfold := mulFold_eq_runAll M.ops w x y
  have hgetD : (point_mul_vartime M.ops w (x, y)).1 =
      (mulFold M.ops w x y).acc.value.getD (M.ops.zero, M.ops.zero, M.ops.zero) :=
    rfl
  by_cases hall : ∀ d ∈ w, d = 0
  · have hnone : (mulFold M.ops w x y).acc.value = none := by
      rw [hfold]
      exact r1 hall
    have hzero : (point_mul_vartime M.ops w (x, y)).1 =
        (M.ops.zero, M.ops.zero, M.ops.zero) := by
      rw [hgetD, hnone]
      rfl
    refine ⟨?_, ⟨fun _ => hall, fun _ => hnone⟩, ⟨fun _ => hall, fun _ => hzero⟩,
      ?_, ?_⟩
    · rw [hzero, M.zero_spec, wnafVal_all_zero hall, zero_zsmul]
    · intro v hv
      rw [hnone] at hv
      cases hv
    · intro cl hcl
      rcases List.mem_append.mp hcl with h | h
      · exact precompAll_calls_ok M x y hord cl h
      · have hcalls : (mulFold M.ops w x y).calls =
            (runAll M.ops (initState M.ops x y) w).calls := by rw [hfold]
        rw [hcalls] at h
        exact r3 cl h
  · have hex : ∃ d ∈ w, d ≠ 0 := by
      push_neg at hall
      exact hall
    obtain ⟨v, hv, hvg⟩ := r2 hex
    have hsome : (mulFold M.ops w x y).acc.value = some v := by
      rw [hfold]
      exact hv
    have hresv : (point_mul_vartime M.ops w (x, y)).1 = v := by
      rw [hgetD, hsome]
      rfl
    have hvne : M.toGrp v ≠ 0 := by
      rw [hvg]
      intro h
      exact (hsafe 0 hex) ((hord _).mp h)
    refine ⟨by rw [hresv]; exact hvg, ?_, ?_, ?_, ?_⟩
    · constructor
      · intro h
        rw [hsome] at h
        cases h
      · intro h
        exact absurd h hall
    · constructor
      · intro h
        exfalso
        apply hvne
        rw [← hresv, h, M.zero_spec]
      · intro h
        exact absurd h hall
    · intro v2 hv2
      rw [hsome] at hv2
      rw [hresv]
      exact Option.some_injective _ hv2
    · intro cl hcl
      rcases List.mem_append.mp hcl with h | h
      · exact precompAll_calls_ok M x y hord cl h
      · have hcalls : (mulFold M.ops w x y).calls =
            (runAll M.ops (initState M.ops x y) w).calls := by rw [hfold]
        rw [hcalls] at h
        exact r3 cl h

/-! ## The claims -/

/-- Claim C1: for every scalar already reduced modulo the group order —
presented, per the external recoder's spec contract, as a wNAF digit
sequence of contract-conforming digits whose value is `k` with
`0 ≤ k < n` — and every base point `(x, y)` of exact order `n`,
`point_mul_vartime` returns a projective triple representing the group
element `k · P`: the double-and-add fold over the wNAF digits equals the
scalar multiple of the input point. -/
theorem c1_point_mul_vartime_computes_scalar_multiple
    {E Pub G : Type} [AddCommGroup G] (M : SpecModel E Pub G) (x y : E)
    (hord : ∀ m : ℤ, m • M.toGrp (entry0 M.ops x y) = 0 ↔ (M.n : ℤ) ∣ m)
    (w : List ℤ) (k : ℤ) (hg : ∀ d ∈ w, wnafDigitOk d)
    (hval : wnafVal w = k) (h0 : 0 ≤ k) (h1 : k < (M.n : ℤ)) :
    M.toGrp (point_mul_vartime M.ops w (x, y)).1 =
      k • M.toGrp (entry0 M.ops x y) := by
  subst hval
  exact (point_mul_vartime_spec M x y hord w hg h0 h1).1

theorem c1_point_mul_vartime_computes_scalar_multiple_witness :
    (∀ d ∈ [(5 : ℤ)], wnafDigitOk d) ∧ wnafVal [(5 : ℤ)] = 5 ∧
      (0 : ℤ) ≤ 5 ∧ (5 : ℤ) < (toySpec.n : ℤ) ∧
      toySpec.toGrp (point_mul_vartime toySpec.ops [(5 : ℤ)] (1, 1)).1 =
        (5 : ℤ) • toySpec.toGrp (entry0 toySpec.ops 1 1) :=
  ⟨by decide, by decide, by decide, by decide,
   c1_point_mul_vartime_computes_scalar_multiple toySpec 1 1 toyOrd [(5 : ℤ)] 5
     (by decide) (by decide) (by decide) (by decide)⟩

/-- Claim C2 counterexample: in the concrete instantiation over
`ZMod 31`, table entry 1 is `(0, 3, 1)`, which represents `3·P`; it is
not obtained by doubling `P` and is not `2P`: `point_double(entry 0)` is
the distinct triple `(0, 2, 1)` (representing `2·P`), stored in the
standalone local `p2`, not in the table. -/
theorem c2_counterexample :
    (precompAll toyOps 1 1).1.getD 1 (0, 0, 0) = ((0 : ZMod 31), 3, 1) ∧
    toyOps.point_double (entry0 toyOps 1 1) = ((0 : ZMod 31), 2, 1) ∧
    (precompAll toyOps 1 1).1.getD 1 (0, 0, 0) ≠
      toyOps.point_double (entry0 toyOps 1 1) ∧
    toyAbs ((precompAll toyOps 1 1).1.getD 1 (0, 0, 0)) ≠
      (2 : ℤ) • toyAbs (entry0 toyOps 1 1) := by
  refine ⟨by decide, by decide, by decide, ?_⟩
  have h2 : (2 : ℤ) • toyAbs (entry0 toyOps 1 1) = 2 := by
    rw [two_zsmul]
    decide
  rw [h2]
  decide

/-- Claim C2 (amended): entry 0 is `P` itself with its projective Z set
to 1 in the Montgomery domain (the raw integer 1 multiplied by the
squared-radix constant); the *doubled point* `2P` produced by
`point_double` of entry 0 is a standalone local value, not a table
entry; for `i + 1 < 8` entry `i+1` is produced by adding that doubled
point to entry `i` out of place; and every entry `i < 8` represents
`(2i+1)·P` — the sequence `P, 3P, 5P, …, 15P`. -/
theorem c2_precomp_table_amended {E Pub G : Type} [AddCommGroup G]
    (M : SpecModel E Pub G) (x y : E)
    (hord : ∀ m : ℤ, m • M.toGrp (entry0 M.ops x y) = 0 ↔ (M.n : ℤ) ∣ m) :
    (precompAll M.ops x y).1.getD 0 (M.ops.zero, M.ops.zero, M.ops.zero) =
        (x, y, M.ops.elem_mul M.ops.raw_one M.ops.rr) ∧
      (precompAll M.ops x y).1.length = PRECOMP_SIZE ∧
      (∀ i : ℕ, i + 1 < PRECOMP_SIZE →
        (precompAll M.ops x y).1.getD (i + 1)
            (M.ops.zero, M.ops.zero, M.ops.zero) =
          M.ops.points_add_vartime (M.ops.point_double (entry0 M.ops x y))
            ((precompAll M.ops x y).1.getD i
              (M.ops.zero, M.ops.zero, M.ops.zero)).1
            ((precompAll M.ops x y).1.getD i
              (M.ops.zero, M.ops.zero, M.ops.zero)).2.1
            ((precompAll M.ops x y).1.getD i
              (M.ops.zero, M.ops.zero, M.ops.zero)).2.2) ∧
      (∀ i : ℕ, i < PRECOMP_SIZE →
        M.toGrp ((precompAll M.ops x y).1.getD i
            (M.ops.zero, M.ops.zero, M.ops.zero)) =
          (2 * (i : ℤ) + 1) • M.toGrp (entry0 M.ops x y)) := by
  have h8 : PRECOMP_SIZE = 8 := by decide
  refine ⟨?_, ?_, ?_, ?_⟩
  · rw [precompAll_getD M.ops x y 0 (by omega)]
    rfl
  · show (buildPrecomp M.ops _ _ (PRECOMP_SIZE - 1)).1.length = _
    rw [buildPrecomp_fst_length]
    omega
  · intro i hi
    rw [precompAll_getD M.ops x y (i + 1) hi,
      precompAll_getD M.ops x y i (by omega)]
    rfl
  · intro i hi
    rw [precompAll_getD M.ops x y i hi]
    exact toGrp_iterEntry M x y hord i hi

theorem c2_precomp_table_amended_witness :
    toySpec.toGrp ((precompAll toySpec.ops 1 1).1.getD 1
        (toySpec.ops.zero, toySpec.ops.zero, toySpec.ops.zero)) =
      (2 * (1 : ℤ) + 1) • toySpec.toGrp (entry0 toySpec.ops 1 1) :=
  (c2_precomp_table_amended toySpec 1 1 toyOrd).2.2.2 1 (by decide)

/-- Claim C3: `points_mul_vartime` returns exactly `new_point` applied
to the group-law sum — the in-place `points_add_vartime` merge, stored
back into the first triple — of the two independent `point_mul_vartime`
results. -/
theorem c3_points_mul_vartime_decomposition {E Pub : Type}
    (ops : CommonOps E Pub) (gw pw : List ℤ) (g p : E × E) :
    (points_mul_vartime ops gw g pw p).1 =
      ops.new_point
        (ops.points_add_vartime (point_mul_vartime ops gw g).1
          (point_mul_vartime ops pw p).1.1
          (point_mul_vartime ops pw p).1.2.1
          (point_mul_vartime ops pw p).1.2.2).1
        (ops.points_add_vartime (point_mul_vartime ops gw g).1
          (point_mul_vartime ops pw p).1.1
          (point_mul_vartime ops pw p).1.2.1
          (point_mul_vartime ops pw p).1.2.2).2.1
        (ops.points_add_vartime (point_mul_vartime ops gw g).1
          (point_mul_vartime ops pw p).1.1
          (point_mul_vartime ops pw p).1.2.1
          (point_mul_vartime ops pw p).1.2.2).2.2 := rfl

/-- Claim C4 counterexample: the claim fails for a scalar ≡ 0 mod the
group order.  With first recoding `[0]` (a contract-conforming recoder
output for the scalar 0), the first `point_mul_vartime` result is the
all-zero triple — the point-at-infinity representation — and the Dual
Multiplier's merging addition IS invoked with it as its first
operand. -/
theorem c4_counterexample :
    (∀ d ∈ [(0 : ℤ)], wnafDigitOk d) ∧ wnafVal [(0 : ℤ)] = 0 ∧
    (point_mul_vartime toyOps [(0 : ℤ)] ((1 : ZMod 31), 1)).1 = (0, 0, 0) ∧
    PrimCall.add ((0, 0, 0) : Pt (ZMod 31)) ((1, 1, 1) : Pt (ZMod 31)) ∈
      (points_mul_vartime toyOps [(0 : ℤ)] (1, 1) [(1 : ℤ)] (1, 1)).2 ∧
    toyAbs (0, 0, 0) = 0 :=
  ⟨by decide, by decide, by decide, by decide, by decide⟩

/-- Claim C4 (amended): under the spec-modelled contracts,
`point_mul_vartime` never invokes `points_add_vartime` with the point at
infinity as either operand (the accumulator special-cases the first
nonzero digit by direct assignment, and the table's additions combine
`2P` with odd multiples), and the Dual Multiplier's merging addition
also has non-infinity operands *provided both scalars' recodings contain
a nonzero digit*; when a scalar ≡ 0 mod the order, the merge receives
the all-zero infinity triple (see the counterexample). -/
theorem c4_no_infinity_operands_amended {E Pub G : Type} [AddCommGroup G]
    (M : SpecModel E Pub G) (xg yg xp yp : E)
    (hordg : ∀ m : ℤ, m • M.toGrp (entry0 M.ops xg yg) = 0 ↔ (M.n : ℤ) ∣ m)
    (hordp : ∀ m : ℤ, m • M.toGrp (entry0 M.ops xp yp) = 0 ↔ (M.n : ℤ) ∣ m)
    (wg wp : List ℤ)
    (hgg : ∀ d ∈ wg, wnafDigitOk d) (hgp : ∀ d ∈ wp, wnafDigitOk d)
    (h0g : 0 ≤ wnafVal wg) (h1g : wnafVal wg < (M.n : ℤ))
    (h0p : 0 ≤ wnafVal wp) (h1p : wnafVal wp < (M.n : ℤ))
    (hnzg : ∃ d ∈ wg, d ≠ 0) (hnzp : ∃ d ∈ wp, d ≠ 0) :
    ∀ cl ∈ (points_mul_vartime M.ops wg (xg, yg) wp (xp, yp)).2,
      addCallOk M.toGrp cl := by
  intro cl hcl
  have hlog : (points_mul_vartime M.ops wg (xg, yg) wp (xp, yp)).2 =
      (point_mul_vartime M.ops wg (xg, yg)).2 ++
        (point_mul_vartime M.ops wp (xp, yp)).2 ++
        [PrimCall.add (point_mul_vartime M.ops wg (xg, yg)).1
          (point_mul_vartime M.ops wp (xp, yp)).1] := rfl
  have sg := point_mul_vartime_spec M xg yg hordg wg hgg h0g h1g
  have sp := point_mul_vartime_spec M xp yp hordp wp hgp h0p h1p
  rw [hlog] at hcl
  rcases List.mem_append.mp hcl with h | h
  · rcases List.mem_append.mp h with h2 | h2
    · exact sg.2.2.2.2 cl h2
    · exact sp.2.2.2.2 cl h2
  · rw [List.mem_singleton.mp h]
    have hdg : ¬ ((M.n : ℤ) ∣ wnafVal wg) :=
      safe_tails hgg M.n_odd M.n_big h0g h1g 0 hnzg
    have hdp : ¬ ((M.n : ℤ) ∣ wnafVal wp) :=
      safe_tails hgp M.n_odd M.n_big h0p h1p 0 hnzp
    refine ⟨?_, ?_⟩
    · rw [sg.1]
      intro h2
      exact hdg ((hordg _).mp h2)
    · rw [sp.1]
      intro h2
      exact hdp ((hordp _).mp h2)

theorem c4_no_infinity_operands_amended_witness :
    (∃ d ∈ [(1 : ℤ)], d ≠ 0) ∧ (∃ d ∈ [(3 : ℤ)], d ≠ 0) ∧
    ∀ cl ∈ (points_mul_vartime toySpec.ops [(1 : ℤ)] (1, 1)
        [(3 : ℤ)] (1, 1)).2, addCallOk toySpec.toGrp cl :=
  ⟨by decide, by decide,
   c4_no_infinity_operands_amended toySpec 1 1 1 1 toyOrd toyOrd
     [(1 : ℤ)] [(3 : ℤ)] (by decide) (by decide) (by decide) (by decide)
     (by decide) (by decide) (by decide) (by decide)⟩

/-- Claim C5: `point_mul_vartime` returns the triple of three all-zero
field elements if and only if the accumulator ended at infinity, which
holds if and only if the scalar's wNAF recoding is entirely zero; for a
recoding with at least one nonzero digit it returns the accumulator's
concrete triple; and a scalar ≡ 0 mod the order (recoded value 0) yields
the all-zero point-at-infinity representation. -/
theorem c5_zero_scalar_gives_infinity_triple {E Pub G : Type} [AddCommGroup G]
    (M : SpecModel E Pub G) (x y : E)
    (hord : ∀ m : ℤ, m • M.toGrp (entry0 M.ops x y) = 0 ↔ (M.n : ℤ) ∣ m)
    (w : List ℤ) (hg : ∀ d ∈ w, wnafDigitOk d)
    (h0 : 0 ≤ wnafVal w) (h1 : wnafVal w < (M.n : ℤ)) :
    ((point_mul_vartime M.ops w (x, y)).1 =
        (M.ops.zero, M.ops.zero, M.ops.zero) ↔
      (mulFold M.ops w x y).acc.value = none) ∧
    ((mulFold M.ops w x y).acc.value = none ↔ ∀ d ∈ w, d = 0) ∧
    (∀ v : Pt E, (mulFold M.ops w x y).acc.value = some v →
      (point_mul_vartime M.ops w (x, y)).1 = v) ∧
    (wnafVal w = 0 → (point_mul_vartime M.ops w (x, y)).1 =
      (M.ops.zero, M.ops.zero, M.ops.zero)) := by
  obtain ⟨_, s2, s3, s4, _⟩ := point_mul_vartime_spec M x y hord w hg h0 h1
  refine ⟨s3.trans s2.symm, s2, s4, ?_⟩
  intro hzero
  exact s3.mpr (all_zero_of_wnafVal_zero hg hzero)

theorem c5_zero_scalar_gives_infinity_triple_witness :
    (∀ d ∈ [(0 : ℤ), 0], wnafDigitOk d) ∧ wnafVal [(0 : ℤ), 0] = 0 ∧
    (point_mul_vartime toySpec.ops [(0 : ℤ), 0] (1, 1)).1 =
      (toySpec.ops.zero, toySpec.ops.zero, toySpec.ops.zero) :=
  ⟨by decide, by decide,
   (c5_zero_scalar_gives_infinity_triple toySpec 1 1 toyOrd [(0 : ℤ), 0]
     (by decide) (by decide) (by decide)).2.2.2 (by decide)⟩

/-- Claim C6: under the recoder's contract (every nonzero digit odd with
magnitude in `[1, 15]`), the digit-processing step is panic-free: the
table index `digitIdx d` lies below `PRECOMP_SIZE = 8` so `precomp[idx]`
is in bounds, the magnitude fed to `usize::try_from(..).unwrap()` is
nonnegative and at most 127 (so the `i8` negation `-digit` cannot
overflow), and the `debug_assert_eq!(digit & 1, 1)` holds: the digit is
odd, i.e. `d % 2 = 1`. -/
theorem c6_digit_processing_panic_free (d : ℤ) (hok : wnafDigitOk d)
    (hd : d ≠ 0) :
    digitIdx d < PRECOMP_SIZE ∧
    0 ≤ (if d < 0 then -d else d) ∧ (if d < 0 then -d else d) ≤ 127 ∧
    d % 2 = 1 := by
  obtain ⟨h2, h15⟩ := hok hd
  have h8 : PRECOMP_SIZE = 8 := by decide
  refine ⟨?_, ?_, ?_, h2⟩
  · rw [digitIdx_eq_natAbs_div_two]
    omega
  · split <;> omega
  · split <;> omega

theorem c6_digit_processing_panic_free_witness :
    wnafDigitOk (-15 : ℤ) ∧ (-15 : ℤ) ≠ 0 ∧
    (digitIdx (-15 : ℤ) < PRECOMP_SIZE ∧
      0 ≤ (if (-15 : ℤ) < 0 then -(-15 : ℤ) else (-15 : ℤ)) ∧
      (if (-15 : ℤ) < 0 then -(-15 : ℤ) else (-15 : ℤ)) ≤ 127 ∧
      (-15 : ℤ) % 2 = 1) :=
  ⟨by decide, by decide,
   c6_digit_processing_panic_free (-15) (by decide) (by decide)⟩

/-- Claim C7: for all scalars `a`, `b` (as contract-conforming reduced
recodings) and every base point of exact order `n`, the point computed
by `point_mul_vartime` for `(a + b) mod n` equals the group-law sum of
the two points computed by separate `point_mul_vartime` calls for `a`
and for `b`. -/
theorem c7_point_mul_vartime_additive {E Pub G : Type} [AddCommGroup G]
    (M : SpecModel E Pub G) (x y : E)
    (hord : ∀ m : ℤ, m • M.toGrp (entry0 M.ops x y) = 0 ↔ (M.n : ℤ) ∣ m)
    (wa wb wc : List ℤ)
    (hga : ∀ d ∈ wa, wnafDigitOk d) (hgb : ∀ d ∈ wb, wnafDigitOk d)
    (hgc : ∀ d ∈ wc, wnafDigitOk d)
    (h0a : 0 ≤ wnafVal wa) (h1a : wnafVal wa < (M.n : ℤ))
    (h0b : 0 ≤ wnafVal wb) (h1b : wnafVal wb < (M.n : ℤ))
    (h0c : 0 ≤ wnafVal wc) (h1c : wnafVal wc < (M.n : ℤ))
    (hsum : wnafVal wc = (wnafVal wa + wnafVal wb) % (M.n : ℤ)) :
    M.toGrp (point_mul_vartime M.ops wc (x, y)).1 =
      M.toGrp (point_mul_vartime M.ops wa (x, y)).1 +
        M.toGrp (point_mul_vartime M.ops wb (x, y)).1 := by
  have sa := (point_mul_vartime_spec M x y hord wa hga h0a h1a).1
  have sb := (point_mul_vartime_spec M x y hord wb hgb h0b h1b).1
  have sc := (point_mul_vartime_spec M x y hord wc hgc h0c h1c).1
  have hmod : ∀ s : ℤ, (s % (M.n : ℤ)) • M.toGrp (entry0 M.ops x y) =
      s • M.toGrp (entry0 M.ops x y) := by
    intro s
    have hdiff : (M.n : ℤ) ∣ (s % (M.n : ℤ) - s) := by
      refine ⟨-(s / (M.n : ℤ)), ?_⟩
      rw [Int.emod_def]
      ring
    have h2 : (s % (M.n : ℤ) - s) • M.toGrp (entry0 M.ops x y) = 0 :=
      (hord _).mpr hdiff
    rw [sub_zsmul] at h2
    have h3 : (s % (M.n : ℤ)) • M.toGrp (entry0 M.ops x y) -
        s • M.toGrp (entry0 M.ops x y) = 0 := by
      rw [sub_eq_add_neg]
      exact h2
    exact sub_eq_zero.mp h3
  rw [sa, sb, sc, hsum, hmod, add_zsmul]

theorem c7_point_mul_vartime_additive_witness :
    wnafVal [(0 : ℤ), 0, 1] = (wnafVal [(1 : ℤ)] + wnafVal [(3 : ℤ)]) %
        (toySpec.n : ℤ) ∧
    toySpec.toGrp (point_mul_vartime toySpec.ops [(0 : ℤ), 0, 1] (1, 1)).1 =
      toySpec.toGrp (point_mul_vartime toySpec.ops [(1 : ℤ)] (1, 1)).1 +
        toySpec.toGrp (point_mul_vartime toySpec.ops [(3 : ℤ)] (1, 1)).1 :=
  ⟨by decide,
   c7_point_mul_vartime_additive toySpec 1 1 toyOrd [(1 : ℤ)] [(3 : ℤ)]
     [(0 : ℤ), 0, 1] (by decide) (by decide) (by decide) (by decide)
     (by decide) (by decide) (by decide) (by decide) (by decide) (by decide)⟩

/-- Claim C8: the accumulator starts at infinity (`value = none`) and
transitions monotonically: `add_assign` always leaves a concrete value,
`double_assign` leaves a concrete value exactly when one was already
held (never returning a concrete accumulator to infinity); moreover
`double_assign` on an infinity accumulator is a no-op that invokes no
point-doubling primitive (empty call log), and the first `add_assign` on
an infinity accumulator sets the value to exactly the given triple
without invoking point addition. -/
theorem c8_accumulator_monotone {E Pub : Type} (o : CommonOps E Pub)
    (a : PointVartime E Pub) (x y z : E) :
    (PointVartime.new_at_infinity o).value = none ∧
    (a.add_assign x y z).1.value ≠ none ∧
    ((a.double_assign).1.value = none ↔ a.value = none) ∧
    (a.value = none → a.double_assign = (a, [])) ∧
    (a.value = none → a.add_assign x y z = (⟨a.ops, some (x, y, z)⟩, [])) := by
  obtain ⟨ao, v⟩ := a
  cases v with
  | none =>
    exact ⟨rfl, fun h => Option.noConfusion h, ⟨fun _ => rfl, fun _ => rfl⟩,
      fun _ => rfl, fun _ => rfl⟩
  | some p =>
    refine ⟨rfl, fun h => Option.noConfusion h, ⟨fun h => Option.noConfusion h,
      fun h => Option.noConfusion h⟩, fun h => Option.noConfusion h,
      fun h => Option.noConfusion h⟩

theorem c8_accumulator_monotone_witness :
    (PointVartime.new_at_infinity toyOps).double_assign =
        (PointVartime.new_at_infinity toyOps, []) ∧
    (PointVartime.new_at_infinity toyOps).add_assign 0 0 0 =
        (⟨toyOps, some ((0 : ZMod 31), 0, 0)⟩, []) :=
  ⟨(c8_accumulator_monotone toyOps (PointVartime.new_at_infinity toyOps)
      0 0 0).2.2.2.1 rfl,
   (c8_accumulator_monotone toyOps (PointVartime.new_at_infinity toyOps)
      0 0 0).2.2.2.2 rfl⟩

/-- Claim C9: the odd-multiples table is immutable after construction:
the fold state's table component is unchanged by any sequence of digit
steps (the Y negation for negative digits is applied to a local copy,
never to the table entry), so the whole digit fold of
`point_mul_vartime` ends with exactly the table the precomputation
built, and every step reads its entry from that original table. -/
theorem c9_precomp_table_immutable {E Pub : Type} (ops : CommonOps E Pub)
    (t : List (Pt E)) (a : PointVartime E Pub) (cs : List (PrimCall E))
    (l : List (ℕ × ℤ)) (wnaf : List ℤ) (x y : E) :
    (List.foldl (digitStep ops) ⟨t, a, cs⟩ l).precomp = t ∧
    (mulFold ops wnaf x y).precomp = (precompAll ops x y).1 :=
  ⟨foldl_digitStep_precomp ops ⟨t, a, cs⟩ l,
   foldl_digitStep_precomp ops _ _⟩

/-- Claim C10: the stack buffer for the wNAF digits has exactly
`MAX_BITS + 1` entries, and taking the subslice of the first
`order_bits + 1` entries is panic-free (models as `some`) exactly under
the precondition `order_bits ≤ MAX_BITS`; the produced slice then has
length `order_bits + 1`. -/
theorem c10_wnaf_slice_panic_free (max_bits order_bits : ℕ) :
    (wnafBuffer max_bits).length = max_bits + 1 ∧
    ((sliceWnaf max_bits order_bits).isSome ↔ order_bits ≤ max_bits) ∧
    (∀ l : List ℤ, sliceWnaf max_bits order_bits = some l →
      l.length = order_bits + 1) := by
  have hlen : (wnafBuffer max_bits).length = max_bits + 1 :=
    List.length_replicate ..
  refine ⟨hlen, ?_, ?_⟩
  · unfold sliceWnaf
    rw [hlen]
    split
    · simp
      omega
    · simp
      omega
  · intro l hl
    unfold sliceWnaf at hl
    rw [hlen] at hl
    split at hl
    · cases hl
      rw [List.length_take, hlen]
      omega
    · cases hl

theorem c10_wnaf_slice_panic_free_witness :
    (sliceWnaf 521 384).isSome ∧ 384 ≤ 521 :=
  ⟨(c10_wnaf_slice_panic_free 521 384).2.1.mpr (by decide), by decide⟩
